import Mathlib

/-
  Verification of the approval-consensus engine of ParasHQ/manual-approval.

  The definitions below are a shallow embedding of `approval.go` and
  `constants.go`.  Strings are modelled by Lean `String` (with the character
  list `String.toList` used for the pure character-level operations);
  Go's `int` is modelled by `Int`; a Go `error` result is `Option String`
  (`none` = nil error); a run-time panic (the nil-map write of
  `approvalFromComments`, approval.go lines 117-120) is the `GoResult.fault`
  constructor.
-/

namespace ManualApproval

/-- constants.go line 18: `approvedWords = []string{"approved", "approve", "lgtm", "yes"}`. -/
def approvedWords : List String := ["approved", "approve", "lgtm", "yes"]

/-- constants.go line 19: `deniedWords = []string{"denied", "deny", "no"}`. -/
def deniedWords : List String := ["denied", "deny", "no"]

/-- Character class of the regex fragment `[.!]`. -/
def isPunct (c : Char) : Bool := c == '.' || c == '!'

/-- Go regex `(?i)^WORD[.!]*\n*$` (approval.go line 166) applied to a body:
the whole body must be the word (ASCII case-insensitively), then any number
of `.`/`!` characters, then any number of newlines. -/
def matchApproved (word : String) (body : String) : Bool :=
  let ws := word.toList
  let bs := body.toList
  (bs.take ws.length).map Char.toLower == ws &&
    ((bs.drop ws.length).dropWhile isPunct).all (· == '\n')

/-- Go regex `(?i)^WORD[.!]?$` (approval.go line 180) applied to a body:
the whole body must be the word (ASCII case-insensitively) followed by at
most one `.` or `!` and nothing else. -/
def matchDenied (word : String) (body : String) : Bool :=
  let ws := word.toList
  let bs := body.toList
  (bs.take ws.length).map Char.toLower == ws &&
    ((bs.drop ws.length).length ≤ 1 && (bs.drop ws.length).all isPunct)

/-- approval.go lines 164-176, `isApproved`: the Go `error` return is always
nil since every pattern `(?i)^WORD[.!]*\n*$` for the fixed word list
compiles, so only the boolean is modelled. -/
def isApproved (commentBody : String) : Bool :=
  approvedWords.any (fun approvedWord => matchApproved approvedWord commentBody)

/-- approval.go lines 178-190, `isDenied`; as for `isApproved` the Go
`error` is always nil. -/
def isDenied (commentBody : String) : Bool :=
  deniedWords.any (fun deniedWord => matchDenied deniedWord commentBody)

/-- Go `strings.Split(s, "[")` for the one-character separator `[`:
splits at every occurrence, always returns at least one (possibly empty)
part. -/
def splitOnChar (sep : Char) : List Char → List (List Char)
  | [] => [[]]
  | c :: cs =>
    let r := splitOnChar sep cs
    if c == sep then [] :: r
    else
      match r with
      | [] => [[c]]
      | p :: ps => (c :: p) :: ps

/-- Helper for the greedy submatch of `\[(.*)\]`: on a single line (no
newline examined), return the segment before the last `]`, if any `]`
occurs. -/
def untilLastClose : List Char → Option (List Char)
  | [] => none
  | c :: cs =>
    match untilLastClose cs with
    | some p => some (c :: p)
    | none => if c == ']' then some [] else none

/-- Go `regexp.MustCompile` of the bracket pattern, `FindStringSubmatch`
(approval.go lines 111-112), returning the first capture group: leftmost
match, `.` does not cross a newline, `(.*)` is greedy, so the capture runs
from the first `[` that has a `]` later on its line up to the last such
`]`. -/
def findBracketSubmatch : List Char → Option (List Char)
  | [] => none
  | c :: cs =>
    if c == '[' then
      match untilLastClose (cs.takeWhile (fun d => d != '\n')) with
      | some cap => some cap
      | none => findBracketSubmatch cs
    else findBracketSubmatch cs

/-- approval.go lines 105-109: `deploymentNamesRaw` is `"["` concatenated
with the text between the first `[` of the body and the next `[` (or the
end). -/
def rawBracketPart (commentBody : String) : List Char :=
  '[' :: ((splitOnChar '[' commentBody.toList).getD 1 [])

/-- Outcome of the deployment-name extraction block, approval.go
lines 103-128. -/
inductive DeployExtract where
  /-- No bracket present (or the allow-list is empty): the body passes
  through with a nil `bodyDeploymentNames`. -/
  | ok (commentBody : String) (bodyDeploymentNames : List String)
  /-- Line 114: `\[(.*)\]` did not match, error
  `errors.comment by not valid`. -/
  | errMalformed
  /-- Lines 117-120: `var validDeploymentNamesMap map[string]bool` is a nil
  map and the loop `for _, v := range multipleDeploymentNames` writes to it;
  the guard on line 104 guarantees `multipleDeploymentNames` is non-empty
  here, so the first iteration panics
  (`assignment to entry in nil map`). -/
  | fault
deriving DecidableEq

/-- approval.go lines 103-128: the deployment-name extraction performed on
a comment body.  When the body has no `[` or `multipleDeploymentNames` is
empty the body is returned unchanged with nil names (lines 103-104);
when the bracket part fails to match `\[(.*)\]` the evaluation-aborting
malformed error is produced (lines 113-115); when it does match, the nil
`validDeploymentNamesMap` is written (lines 117-120) and the program
panics, so the unknown-name check of lines 121-127 is never reached. -/
def extractDeploy (commentBody : String) (multipleDeploymentNames : List String) : DeployExtract :=
  if commentBody.toList.contains '[' && !multipleDeploymentNames.isEmpty then
    match findBracketSubmatch (rawBracketPart commentBody) with
    | none => .errMalformed
    | some _ => .fault
  else
    .ok commentBody []

/-- The `approvalStatus` enum of the action (`approvalStatusPending`,
`approvalStatusApproved`, `approvalStatusDenied`). -/
inductive approvalStatus where
  | pending
  | approved
  | denied
deriving DecidableEq

/-- A Go computation that either returns a value or panics at run time. -/
inductive GoResult (α : Type) where
  | ok (val : α)
  /-- A run-time panic (here: the nil-map write of approval.go line 119). -/
  | fault
deriving DecidableEq

/-- The result triple of `approvalFromComments`:
`(approvalStatus, deploymentNames, error)`. -/
abbrev EvalResult := approvalStatus × List String × Option String

/-- A GitHub issue comment as consumed by the engine: author login and
body. -/
structure Comment where
  user : String
  body : String
deriving DecidableEq

/-- approval.go lines 155-162, `approversIndex`: index of the first
occurrence of `name`, `-1` if absent. -/
def approversIndex (approvers : List String) (name : String) : Int :=
  match approvers with
  | [] => -1
  | approver :: rest =>
    if approver = name then 0
    else
      let r := approversIndex rest name
      if r < 0 then -1 else r + 1

/-- approval.go lines 138-139: swap-with-last removal,
`remainingApprovers[approverIdx] = remainingApprovers[len-1];
remainingApprovers = remainingApprovers[:len-1]`. -/
def swapRemove (l : List String) (i : Nat) : List String :=
  (l.set i (l.getD (l.length - 1) "")).dropLast

/-- Result of processing one comment in the loop of `approvalFromComments`:
either the loop continues with an updated remaining-approvers list, or the
function returns (or panics). -/
inductive StepOut where
  | cont (remainingApprovers : List String)
  | done (res : GoResult EvalResult)
deriving DecidableEq

/-- One iteration of the comment loop, approval.go lines 94-149:
skip authors absent from `remainingApprovers` (lines 96-99), run the
deployment-name extraction (lines 103-128), then classify: a decisive
approval returns Approved (lines 134-137), a non-decisive one swap-removes
the author (lines 138-140), a denial returns Denied (lines 143-149),
anything else is ignored. -/
def stepComment (approvers : List String) (minimumApprovals : Int)
    (multipleDeploymentNames : List String) (remainingApprovers : List String)
    (comment : Comment) : StepOut :=
  let approverIdx := approversIndex remainingApprovers comment.user
  if approverIdx < 0 then
    .cont remainingApprovers
  else
    match extractDeploy comment.body multipleDeploymentNames with
    | .fault => .done .fault
    | .errMalformed => .done (.ok (.pending, [], some "errors.comment by not valid"))
    | .ok commentBody bodyDeploymentNames =>
      if isApproved commentBody then
        if (remainingApprovers.length : Int) = (approvers.length : Int) - minimumApprovals + 1 then
          .done (.ok (.approved, bodyDeploymentNames, none))
        else
          .cont (swapRemove remainingApprovers approverIdx.toNat)
      else if isDenied commentBody then
        .done (.ok (.denied, [], none))
      else
        .cont remainingApprovers

/-- The comment loop of `approvalFromComments` (approval.go lines 94-152)
with `minimumApprovals` already normalized: falls through to
`(Pending, [], nil)` when the comments are exhausted (lines 150-152). -/
def approvalLoop (comments : List Comment) (approvers : List String)
    (minimumApprovals : Int) (multipleDeploymentNames : List String)
    (remainingApprovers : List String) : GoResult EvalResult :=
  match comments with
  | [] => .ok (.pending, [], none)
  | comment :: rest =>
    match stepComment approvers minimumApprovals multipleDeploymentNames remainingApprovers comment with
    | .cont remainingApprovers' =>
      approvalLoop rest approvers minimumApprovals multipleDeploymentNames remainingApprovers'
    | .done res => res

/-- approval.go line 90-92: `minimumApprovals == 0` means "require all
configured approvers". -/
def normMin (approvers : List String) (minimumApprovals : Int) : Int :=
  if minimumApprovals = 0 then (approvers.length : Int) else minimumApprovals

/-- approval.go lines 86-153, `approvalFromComments`: copy the approver
list into `remainingApprovers` (lines 87-88), normalize
`minimumApprovals` (lines 90-92), then run the comment loop. -/
def approvalFromComments (comments : List Comment) (approvers : List String)
    (minimumApprovals : Int) (multipleDeploymentNames : List String) : GoResult EvalResult :=
  approvalLoop comments approvers (normMin approvers minimumApprovals)
    multipleDeploymentNames approvers

/-- The remaining-approvers list left after the loop processes a comment
list without any early return (`none` when some comment returns early or
panics).  Instrumentation of `approvalLoop` used to state "no early
return" and "state reached after a prefix". -/
def runState (comments : List Comment) (approvers : List String)
    (minimumApprovals : Int) (multipleDeploymentNames : List String)
    (remainingApprovers : List String) : Option (List String) :=
  match comments with
  | [] => some remainingApprovers
  | comment :: rest =>
    match stepComment approvers minimumApprovals multipleDeploymentNames remainingApprovers comment with
    | .cont remainingApprovers' =>
      runState rest approvers minimumApprovals multipleDeploymentNames remainingApprovers'
    | .done _ => none

/-- How the engine classifies a single comment body (given the configured
allow-list), mirroring the order of checks inside the loop body. -/
inductive CommentClass where
  /-- Extraction succeeds and the (possibly trimmed) body is an approval
  word. -/
  | approval
  /-- Extraction succeeds, the body is not an approval word but is a denial
  word. -/
  | denial
  /-- Extraction succeeds and the body is neither vote word. -/
  | noise
  /-- Extraction aborts the evaluation: malformed bracket syntax or the
  nil-map fault. -/
  | aborting
deriving DecidableEq

/-- Classification of one comment exactly as the loop body would process it
once the author check has passed. -/
def classifyComment (multipleDeploymentNames : List String) (c : Comment) : CommentClass :=
  match extractDeploy c.body multipleDeploymentNames with
  | .ok commentBody _ =>
    if isApproved commentBody then .approval
    else if isDenied commentBody then .denial
    else .noise
  | _ => .aborting

/-- Input shape of claim C1: from the state where `remaining` approvers
have not voted yet and `n` further approvals are needed, the comment list
consists (up to skipped comments) of `n` approval-classified comments by
`n` distinct members of `remaining`; every other comment before the `n`-th
approval is either by an author outside `remaining` (an outsider, or an
approver whose approval was already counted) or classifies as noise —
in particular no denial and no extraction-aborting comment from a
still-remaining approver occurs before the decisive one. -/
inductive ApprovalChain (multipleDeploymentNames : List String) :
    List String → Nat → List Comment → Prop where
  /-- The `n`-th approval: one more approval from a remaining approver is
  decisive. -/
  | decisive (remaining : List String) (c : Comment) (rest : List Comment) :
      c.user ∈ remaining →
      classifyComment multipleDeploymentNames c = .approval →
      ApprovalChain multipleDeploymentNames remaining 1 (c :: rest)
  /-- A counted, non-decisive approval: its author is consumed. -/
  | counted (remaining : List String) (c : Comment) (cs : List Comment) (n : Nat) :
      c.user ∈ remaining →
      classifyComment multipleDeploymentNames c = .approval →
      ApprovalChain multipleDeploymentNames (remaining.erase c.user) n cs →
      ApprovalChain multipleDeploymentNames remaining (n + 1) (c :: cs)
  /-- A comment by an author not (or no longer) among the remaining
  approvers: skipped whatever its body. -/
  | skip (remaining : List String) (c : Comment) (cs : List Comment) (n : Nat) :
      c.user ∉ remaining →
      ApprovalChain multipleDeploymentNames remaining n cs →
      ApprovalChain multipleDeploymentNames remaining n (c :: cs)
  /-- A comment that is neither vote word (extraction succeeding): ignored. -/
  | noise (remaining : List String) (c : Comment) (cs : List Comment) (n : Nat) :
      classifyComment multipleDeploymentNames c = .noise →
      ApprovalChain multipleDeploymentNames remaining n cs →
      ApprovalChain multipleDeploymentNames remaining n (c :: cs)

/-- Input shape of the amended claim C2: after `k` counted approvals from
distinct remaining approvers (interleaved with skipped or noise comments),
a denial-classified comment arrives from a still-remaining approver. -/
inductive DenialChain (multipleDeploymentNames : List String) :
    List String → Nat → List Comment → Prop where
  /-- The denial itself, by a still-remaining approver. -/
  | denial (remaining : List String) (c : Comment) (rest : List Comment) :
      c.user ∈ remaining →
      classifyComment multipleDeploymentNames c = .denial →
      DenialChain multipleDeploymentNames remaining 0 (c :: rest)
  /-- A counted approval preceding the denial. -/
  | counted (remaining : List String) (c : Comment) (cs : List Comment) (k : Nat) :
      c.user ∈ remaining →
      classifyComment multipleDeploymentNames c = .approval →
      DenialChain multipleDeploymentNames (remaining.erase c.user) k cs →
      DenialChain multipleDeploymentNames remaining (k + 1) (c :: cs)
  /-- A comment by an author not (or no longer) among the remaining
  approvers: skipped whatever its body. -/
  | skip (remaining : List String) (c : Comment) (cs : List Comment) (k : Nat) :
      c.user ∉ remaining →
      DenialChain multipleDeploymentNames remaining k cs →
      DenialChain multipleDeploymentNames remaining k (c :: cs)
  /-- A comment that is neither vote word: ignored. -/
  | noise (remaining : List String) (c : Comment) (cs : List Comment) (k : Nat) :
      classifyComment multipleDeploymentNames c = .noise →
      DenialChain multipleDeploymentNames remaining k cs →
      DenialChain multipleDeploymentNames remaining k (c :: cs)

/-- Declarative reading of the approval regex `(?i)^WORD[.!]*\n*$`, written
from the spec wording of claim C5: the body is one of the approval words
(case-insensitively), then any number of `.`/`!`, then any number of
newlines, and nothing else. -/
def ApprovalShape (body : String) : Prop :=
  ∃ w ∈ approvedWords, ∃ core punct trail : List Char,
    body.toList = core ++ punct ++ trail ∧
    core.map Char.toLower = w.toList ∧
    (∀ c ∈ punct, c = '.' ∨ c = '!') ∧
    (∀ c ∈ trail, c = '\n')

/-- Declarative reading of the denial regex `(?i)^WORD[.!]?$`, written from
the spec wording of claim C5: the body is one of the denial words
(case-insensitively) followed by at most one `.` or `!`, with no trailing
newline accepted. -/
def DenialShape (body : String) : Prop :=
  ∃ w ∈ deniedWords, ∃ core punct : List Char,
    body.toList = core ++ punct ∧
    core.map Char.toLower = w.toList ∧
    (punct = [] ∨ punct = ['.'] ∨ punct = ['!'])

/- ## Basic lemmas about the loop ingredients -/

theorem approversIndex_neg_iff (l : List String) (u : String) :
    approversIndex l u < 0 ↔ u ∉ l := by
  induction l with
  | nil => simp [approversIndex]
  | cons a t ih =>
    simp only [approversIndex]
    by_cases h : a = u
    · subst h
      simp
    · rw [if_neg h]
      by_cases hr : approversIndex t u < 0
      · rw [if_pos hr]
        have hu : u ∉ t := ih.mp hr
        have hne : u ≠ a := fun hc => h hc.symm
        exact iff_of_true (by norm_num) (by simp [List.mem_cons, hne, hu])
      · rw [if_neg hr]
        have hm : u ∈ t := by
          by_contra hc
          exact hr (ih.mpr hc)
        refine iff_of_false (by omega) (by simp [List.mem_cons, hm])

theorem approversIndex_spec (l : List String) (u : String) (h : u ∈ l) :
    0 ≤ approversIndex l u ∧ (approversIndex l u).toNat < l.length ∧
      l.getD (approversIndex l u).toNat "" = u := by
  induction l with
  | nil => cases h
  | cons a t ih =>
    by_cases ha : a = u
    · simp [approversIndex, ha]
    · have hm : u ∈ t := by
        rcases List.mem_cons.mp h with hc | hc
        · exact absurd hc.symm ha
        · exact hc
      obtain ⟨h0, hlt, hg⟩ := ih hm
      have hnneg : ¬(approversIndex t u < 0) := by omega
      simp only [approversIndex, if_neg ha, if_neg hnneg]
      have htn : (approversIndex t u + 1).toNat = (approversIndex t u).toNat + 1 := by omega
      refine ⟨by omega, ?_, ?_⟩
      · rw [htn]
        simpa [List.length_cons] using hlt
      · rw [htn, List.getD_cons_succ]
        exact hg

theorem swapRemove_length (l : List String) (i : Nat) :
    (swapRemove l i).length = l.length - 1 := by
  simp [swapRemove]

theorem swapRemove_subset (l : List String) (i : Nat) : swapRemove l i ⊆ l := by
  intro x hx
  cases l with
  | nil => simp [swapRemove] at hx
  | cons a t =>
    have hx' : x ∈ (a :: t).set i ((a :: t).getD ((a :: t).length - 1) "") :=
      List.dropLast_subset _ hx
    rcases List.mem_or_eq_of_mem_set hx' with h | h
    · exact h
    · subst h
      have hlt : (a :: t).length - 1 < (a :: t).length := by simp
      rw [List.getD_eq_getElem _ _ hlt]
      exact List.getElem_mem hlt

theorem getD_last_perm (xs : List String) (h : xs ≠ []) :
    ((xs.getD (xs.length - 1) "") :: xs.dropLast).Perm xs := by
  have hlt : xs.length - 1 < xs.length := by
    cases xs with
    | nil => exact absurd rfl h
    | cons a t => simp
  have h2 : xs.getD (xs.length - 1) "" = xs.getLast h := by
    rw [List.getD_eq_getElem _ _ hlt, List.getLast_eq_getElem]
  rw [h2]
  have h3 : ([xs.getLast h] ++ xs.dropLast).Perm (xs.dropLast ++ [xs.getLast h]) :=
    List.perm_append_comm
  rw [List.dropLast_append_getLast h] at h3
  simpa using h3

theorem swapRemove_perm (l : List String) (i : Nat) (hi : i < l.length) :
    (swapRemove l i).Perm (l.erase (l.getD i "")) := by
  induction l generalizing i with
  | nil => simp at hi
  | cons x xs ih =>
    cases i with
    | zero =>
      rcases xs with _ | ⟨y, ys⟩
      · simp [swapRemove]
      · have hperm := getD_last_perm (y :: ys) (by simp)
        simpa [swapRemove, List.getD_cons_succ, List.getD_cons_zero, List.length_cons,
          List.erase_cons_head, List.dropLast_cons₂] using hperm
    | succ j =>
      have hj : j < xs.length := by simpa [List.length_cons] using hi
      have hxs : xs ≠ [] := by
        intro hc
        subst hc
        simp at hj
      rw [List.getD_cons_succ]
      have hlast : (x :: xs).getD ((x :: xs).length - 1) "" = xs.getD (xs.length - 1) "" := by
        obtain ⟨y, ys, rfl⟩ : ∃ y ys, xs = y :: ys := by
          cases xs with
          | nil => exact absurd rfl hxs
          | cons y ys => exact ⟨y, ys, rfl⟩
        simp [List.length_cons, List.getD_cons_succ]
      simp only [swapRemove]
      rw [hlast, List.set_cons_succ]
      have hsetne : xs.set j (xs.getD (xs.length - 1) "") ≠ [] := by
        intro hc
        have hlen := congrArg List.length hc
        simp only [List.length_set, List.length_nil] at hlen
        omega
      rw [List.dropLast_cons_of_ne_nil hsetne]
      have hIH : (swapRemove xs j).Perm (xs.erase (xs.getD j "")) := ih j hj
      show (x :: swapRemove xs j).Perm ((x :: xs).erase (xs.getD j ""))
      by_cases hxa : x = xs.getD j ""
      · have hmem : xs.getD j "" ∈ xs := by
          rw [List.getD_eq_getElem _ _ hj]
          exact List.getElem_mem hj
        have hc1 : (x :: swapRemove xs j).Perm (x :: xs.erase (xs.getD j "")) :=
          List.Perm.cons _ hIH
        have hc2 : ((xs.getD j "") :: xs.erase (xs.getD j "")).Perm xs :=
          (List.perm_cons_erase hmem).symm
        rw [hxa] at hc1 ⊢
        rw [List.erase_cons_head]
        exact hc1.trans hc2
      · rw [List.erase_cons_tail (by simpa using hxa)]
        exact List.Perm.cons _ hIH

theorem swapRemove_nodup (l : List String) (i : Nat) (hl : l.Nodup) (hi : i < l.length) :
    (swapRemove l i).Nodup :=
  ((swapRemove_perm l i hi).nodup_iff).mpr (hl.erase _)

theorem getD_not_mem_swapRemove (l : List String) (i : Nat) (hl : l.Nodup) (hi : i < l.length) :
    l.getD i "" ∉ swapRemove l i := by
  intro hmem
  have h2 : l.getD i "" ∈ l.erase (l.getD i "") := (swapRemove_perm l i hi).subset hmem
  rcases (List.Nodup.mem_erase_iff hl).mp h2 with ⟨hne, _⟩
  exact hne rfl

theorem extractDeploy_ok_inv {b b' : String} {allow ns} (hext : extractDeploy b allow = .ok b' ns) :
    b' = b ∧ ns = [] := by
  unfold extractDeploy at hext
  by_cases hc : (b.toList.contains '[' && !allow.isEmpty) = true
  · rw [if_pos hc] at hext
    cases hfb : findBracketSubmatch (rawBracketPart b) <;> rw [hfb] at hext <;> cases hext
  · rw [if_neg hc] at hext
    cases hext
    exact ⟨rfl, rfl⟩

theorem classifyComment_ok {allow : List String} {c : Comment} {b : String} {ns : List String}
    (hext : extractDeploy c.body allow = .ok b ns) :
    classifyComment allow c =
      (if isApproved b then CommentClass.approval
       else if isDenied b then CommentClass.denial
       else CommentClass.noise) := by
  unfold classifyComment
  rw [hext]

theorem classifyComment_approval_inv {allow : List String} {c : Comment}
    (h : classifyComment allow c = .approval) :
    extractDeploy c.body allow = .ok c.body [] ∧ isApproved c.body = true := by
  cases hext : extractDeploy c.body allow with
  | ok b ns =>
    obtain ⟨hb, hns⟩ := extractDeploy_ok_inv hext
    subst hb
    subst hns
    rw [classifyComment_ok hext] at h
    by_cases ha : isApproved c.body = true
    · exact ⟨rfl, ha⟩
    · rw [if_neg ha] at h
      by_cases hd : isDenied c.body = true
      · rw [if_pos hd] at h
        cases h
      · rw [if_neg hd] at h
        cases h
  | errMalformed =>
    unfold classifyComment at h
    rw [hext] at h
    cases h
  | fault =>
    unfold classifyComment at h
    rw [hext] at h
    cases h

theorem classifyComment_denial_inv {allow : List String} {c : Comment}
    (h : classifyComment allow c = .denial) :
    extractDeploy c.body allow = .ok c.body [] ∧ isApproved c.body = false ∧
      isDenied c.body = true := by
  cases hext : extractDeploy c.body allow with
  | ok b ns =>
    obtain ⟨hb, hns⟩ := extractDeploy_ok_inv hext
    subst hb
    subst hns
    rw [classifyComment_ok hext] at h
    by_cases ha : isApproved c.body = true
    · rw [if_pos ha] at h
      cases h
    · rw [if_neg ha] at h
      by_cases hd : isDenied c.body = true
      · exact ⟨rfl, by simpa using ha, hd⟩
      · rw [if_neg hd] at h
        cases h
  | errMalformed =>
    unfold classifyComment at h
    rw [hext] at h
    cases h
  | fault =>
    unfold classifyComment at h
    rw [hext] at h
    cases h

theorem classifyComment_noise_inv {allow : List String} {c : Comment}
    (h : classifyComment allow c = .noise) :
    extractDeploy c.body allow = .ok c.body [] ∧ isApproved c.body = false ∧
      isDenied c.body = false := by
  cases hext : extractDeploy c.body allow with
  | ok b ns =>
    obtain ⟨hb, hns⟩ := extractDeploy_ok_inv hext
    subst hb
    subst hns
    rw [classifyComment_ok hext] at h
    by_cases ha : isApproved c.body = true
    · rw [if_pos ha] at h
      cases h
    · rw [if_neg ha] at h
      by_cases hd : isDenied c.body = true
      · rw [if_pos hd] at h
        cases h
      · exact ⟨rfl, by simpa using ha, by simpa using hd⟩
  | errMalformed =>
    unfold classifyComment at h
    rw [hext] at h
    cases h
  | fault =>
    unfold classifyComment at h
    rw [hext] at h
    cases h

/- ## Characterizations of one loop iteration -/

theorem stepComment_not_mem {A r : List String} {m : Int} {allow : List String} {c : Comment}
    (h : c.user ∉ r) : stepComment A m allow r c = .cont r := by
  have hneg : approversIndex r c.user < 0 := (approversIndex_neg_iff r c.user).mpr h
  simp only [stepComment]
  rw [if_pos hneg]

theorem stepComment_mem_eq {A r : List String} {m : Int} {allow : List String} {c : Comment}
    (h : c.user ∈ r) :
    stepComment A m allow r c =
      (match extractDeploy c.body allow with
      | .fault => .done .fault
      | .errMalformed => .done (.ok (.pending, [], some "errors.comment by not valid"))
      | .ok commentBody bodyDeploymentNames =>
        if isApproved commentBody then
          if (r.length : Int) = (A.length : Int) - m + 1 then
            .done (.ok (.approved, bodyDeploymentNames, none))
          else
            .cont (swapRemove r (approversIndex r c.user).toNat)
        else if isDenied commentBody then
          .done (.ok (.denied, [], none))
        else
          .cont r) := by
  have hneg : ¬(approversIndex r c.user < 0) := by
    rw [approversIndex_neg_iff]
    exact fun hc => hc h
  simp only [stepComment]
  rw [if_neg hneg]

theorem stepComment_mem_ok {A r : List String} {m : Int} {allow : List String} {c : Comment}
    {b : String} {ns : List String} (hmem : c.user ∈ r)
    (hext : extractDeploy c.body allow = .ok b ns) :
    stepComment A m allow r c =
      (if isApproved b then
        if (r.length : Int) = (A.length : Int) - m + 1 then
          .done (.ok (.approved, ns, none))
        else
          .cont (swapRemove r (approversIndex r c.user).toNat)
      else if isDenied b then
        .done (.ok (.denied, [], none))
      else
        .cont r) := by
  rw [stepComment_mem_eq hmem, hext]

theorem stepComment_approval_hit {A r : List String} {m : Int} {allow : List String} {c : Comment}
    (hmem : c.user ∈ r) (hcl : classifyComment allow c = .approval)
    (hq : (r.length : Int) = (A.length : Int) - m + 1) :
    stepComment A m allow r c = .done (.ok (.approved, [], none)) := by
  obtain ⟨hext, ha⟩ := classifyComment_approval_inv hcl
  rw [stepComment_mem_eq hmem, hext]
  simp [ha, hq]

theorem stepComment_approval_cont {A r : List String} {m : Int} {allow : List String} {c : Comment}
    (hmem : c.user ∈ r) (hcl : classifyComment allow c = .approval)
    (hq : (r.length : Int) ≠ (A.length : Int) - m + 1) :
    stepComment A m allow r c = .cont (swapRemove r (approversIndex r c.user).toNat) := by
  obtain ⟨hext, ha⟩ := classifyComment_approval_inv hcl
  rw [stepComment_mem_eq hmem, hext]
  simp [ha, hq]

theorem stepComment_denial {A r : List String} {m : Int} {allow : List String} {c : Comment}
    (hmem : c.user ∈ r) (hcl : classifyComment allow c = .denial) :
    stepComment A m allow r c = .done (.ok (.denied, [], none)) := by
  obtain ⟨hext, ha, hd⟩ := classifyComment_denial_inv hcl
  rw [stepComment_mem_eq hmem, hext]
  simp [ha, hd]

theorem stepComment_noise {A r : List String} {m : Int} {allow : List String} {c : Comment}
    (hcl : classifyComment allow c = .noise) :
    stepComment A m allow r c = .cont r := by
  by_cases hmem : c.user ∈ r
  · obtain ⟨hext, ha, hd⟩ := classifyComment_noise_inv hcl
    rw [stepComment_mem_eq hmem, hext]
    simp [ha, hd]
  · exact stepComment_not_mem hmem

theorem stepComment_fault_of_extract {A r : List String} {m : Int} {allow : List String}
    {c : Comment} (hmem : c.user ∈ r) (hext : extractDeploy c.body allow = .fault) :
    stepComment A m allow r c = .done .fault := by
  rw [stepComment_mem_eq hmem, hext]

theorem stepComment_malformed_of_extract {A r : List String} {m : Int} {allow : List String}
    {c : Comment} (hmem : c.user ∈ r) (hext : extractDeploy c.body allow = .errMalformed) :
    stepComment A m allow r c = .done (.ok (.pending, [], some "errors.comment by not valid")) := by
  rw [stepComment_mem_eq hmem, hext]

theorem stepComment_cont_subset {A r r' : List String} {m : Int} {allow : List String}
    {c : Comment} (h : stepComment A m allow r c = .cont r') : r' ⊆ r := by
  by_cases hmem : c.user ∈ r
  · cases hext : extractDeploy c.body allow with
    | ok b ns =>
      rw [stepComment_mem_ok hmem hext] at h
      by_cases ha : isApproved b = true
      · by_cases hq : (r.length : Int) = (A.length : Int) - m + 1
        · rw [if_pos ha, if_pos hq] at h
          cases h
        · rw [if_pos ha, if_neg hq] at h
          cases h
          exact swapRemove_subset _ _
      · by_cases hd : isDenied b = true
        · rw [if_neg ha, if_pos hd] at h
          cases h
        · rw [if_neg ha, if_neg hd] at h
          cases h
          exact fun x hx => hx
    | errMalformed =>
      rw [stepComment_malformed_of_extract hmem hext] at h
      cases h
    | fault =>
      rw [stepComment_fault_of_extract hmem hext] at h
      cases h
  · rw [stepComment_not_mem hmem] at h
    cases h
    exact fun x hx => hx

theorem stepComment_cont_nodup {A r r' : List String} {m : Int} {allow : List String}
    {c : Comment} (hr : r.Nodup) (h : stepComment A m allow r c = .cont r') : r'.Nodup := by
  by_cases hmem : c.user ∈ r
  · cases hext : extractDeploy c.body allow with
    | ok b ns =>
      rw [stepComment_mem_ok hmem hext] at h
      by_cases ha : isApproved b = true
      · by_cases hq : (r.length : Int) = (A.length : Int) - m + 1
        · rw [if_pos ha, if_pos hq] at h
          cases h
        · rw [if_pos ha, if_neg hq] at h
          cases h
          exact swapRemove_nodup r _ hr (approversIndex_spec r c.user hmem).2.1
      · by_cases hd : isDenied b = true
        · rw [if_neg ha, if_pos hd] at h
          cases h
        · rw [if_neg ha, if_neg hd] at h
          cases h
          exact hr
    | errMalformed =>
      rw [stepComment_malformed_of_extract hmem hext] at h
      cases h
    | fault =>
      rw [stepComment_fault_of_extract hmem hext] at h
      cases h
  · rw [stepComment_not_mem hmem] at h
    cases h
    exact hr

/- ## Global lemmas about the loop -/

theorem approvalLoop_append (xs ys : List Comment) (A : List String) (m : Int)
    (allow r : List String) :
    approvalLoop (xs ++ ys) A m allow r =
      (match runState xs A m allow r with
      | some r' => approvalLoop ys A m allow r'
      | none => approvalLoop xs A m allow r) := by
  induction xs generalizing r with
  | nil => simp [approvalLoop, runState]
  | cons c xs ih =>
    simp only [List.cons_append, approvalLoop, runState]
    cases hstep : stepComment A m allow r c with
    | cont r2 =>
      simp only [hstep]
      exact ih r2
    | done res =>
      simp only [approvalLoop, runState, hstep]

theorem approvalLoop_pending_of_runState {xs : List Comment} {A : List String} {m : Int}
    {allow : List String} : ∀ {r r' : List String}, runState xs A m allow r = some r' →
    approvalLoop xs A m allow r = .ok (.pending, [], none) := by
  induction xs with
  | nil => intro r r' _; simp [approvalLoop]
  | cons c xs ih =>
    intro r r' h
    simp only [runState] at h
    simp only [approvalLoop]
    cases hstep : stepComment A m allow r c <;> rw [hstep] at h
    · exact ih h
    · cases h

theorem runState_nodup {xs : List Comment} {A : List String} {m : Int} {allow : List String} :
    ∀ {r r' : List String}, r.Nodup → runState xs A m allow r = some r' → r'.Nodup := by
  induction xs with
  | nil =>
    intro r r' hr h
    simp only [runState] at h
    cases h
    exact hr
  | cons c xs ih =>
    intro r r' hr h
    simp only [runState] at h
    cases hstep : stepComment A m allow r c <;> rw [hstep] at h
    · exact ih (stepComment_cont_nodup hr hstep) h
    · cases h

theorem approvalLoop_insert {A : List String} {m : Int} {allow : List String} (c : Comment)
    (post : List Comment) :
    ∀ (pre : List Comment) (r : List String), c.user ∉ r →
      approvalLoop (pre ++ c :: post) A m allow r = approvalLoop (pre ++ post) A m allow r := by
  intro pre
  induction pre with
  | nil =>
    intro r h
    simp only [List.nil_append, approvalLoop, stepComment_not_mem h]
  | cons d pre ih =>
    intro r h
    simp only [List.cons_append, approvalLoop]
    cases hstep : stepComment A m allow r d with
    | cont r2 =>
      simp only [hstep]
      exact ih r2 (fun hc => h (stepComment_cont_subset hstep hc))
    | done res => simp only [hstep]

/- ## Scenario chains: stability under permutation and the two run lemmas -/

theorem approvalChain_perm {allow : List String} {r : List String} {n : Nat} {cs : List Comment}
    (h : ApprovalChain allow r n cs) :
    ∀ r' : List String, r.Perm r' → ApprovalChain allow r' n cs := by
  induction h with
  | decisive remaining c rest hmem hcl =>
    intro r' hp
    exact .decisive r' c rest (hp.subset hmem) hcl
  | counted remaining c cs n hmem hcl _ ih =>
    intro r' hp
    exact .counted r' c cs n (hp.subset hmem) hcl (ih _ (hp.erase c.user))
  | skip remaining c cs n hmem _ ih =>
    intro r' hp
    exact .skip r' c cs n (fun hc => hmem (hp.symm.subset hc)) (ih _ hp)
  | noise remaining c cs n hcl _ ih =>
    intro r' hp
    exact .noise r' c cs n hcl (ih _ hp)

theorem denialChain_perm {allow : List String} {r : List String} {k : Nat} {cs : List Comment}
    (h : DenialChain allow r k cs) :
    ∀ r' : List String, r.Perm r' → DenialChain allow r' k cs := by
  induction h with
  | denial remaining c rest hmem hcl =>
    intro r' hp
    exact .denial r' c rest (hp.subset hmem) hcl
  | counted remaining c cs k hmem hcl _ ih =>
    intro r' hp
    exact .counted r' c cs k (hp.subset hmem) hcl (ih _ (hp.erase c.user))
  | skip remaining c cs k hmem _ ih =>
    intro r' hp
    exact .skip r' c cs k (fun hc => hmem (hp.symm.subset hc)) (ih _ hp)
  | noise remaining c cs k hcl _ ih =>
    intro r' hp
    exact .noise r' c cs k hcl (ih _ hp)

theorem ApprovalChain.pos {allow : List String} {r : List String} {n : Nat} {cs : List Comment}
    (h : ApprovalChain allow r n cs) : 1 ≤ n := by
  induction h with
  | decisive => exact le_refl 1
  | counted => omega
  | skip _ _ _ _ _ _ ih => exact ih
  | noise _ _ _ _ _ _ ih => exact ih

theorem approvalLoop_approved_of_chain {allow A : List String} {m : Int} :
    ∀ (cs : List Comment) (r : List String) (n : Nat),
      ApprovalChain allow r n cs →
      m = (A.length : Int) - (r.length : Int) + (n : Int) →
      approvalLoop cs A m allow r = .ok (.approved, [], none) := by
  intro cs
  induction cs with
  | nil =>
    intro r n h _
    cases h
  | cons c cs ih =>
    intro r n h hm
    cases h with
    | decisive _ _ _ hmem hcl =>
      have hq : (r.length : Int) = (A.length : Int) - m + 1 := by omega
      simp only [approvalLoop, stepComment_approval_hit hmem hcl hq]
    | counted _ _ _ n2 hmem hcl hsub =>
      have hpos : 1 ≤ n2 := ApprovalChain.pos hsub
      have hq : (r.length : Int) ≠ (A.length : Int) - m + 1 := by omega
      simp only [approvalLoop, stepComment_approval_cont hmem hcl hq]
      have hspec := approversIndex_spec r c.user hmem
      have hperm : (swapRemove r (approversIndex r c.user).toNat).Perm (r.erase c.user) := by
        have hsp := swapRemove_perm r (approversIndex r c.user).toNat hspec.2.1
        rwa [hspec.2.2] at hsp
      have hchain' := approvalChain_perm hsub _ hperm.symm
      refine ih _ _ hchain' ?_
      rw [swapRemove_length]
      have hrpos : 1 ≤ r.length := List.length_pos.mpr (List.ne_nil_of_mem hmem)
      omega
    | skip _ _ _ _ hmem hsub =>
      simp only [approvalLoop, stepComment_not_mem hmem]
      exact ih _ _ hsub hm
    | noise _ _ _ _ hcl hsub =>
      simp only [approvalLoop, stepComment_noise hcl]
      exact ih _ _ hsub hm

theorem approvalLoop_denied_of_chain {allow A : List String} {m : Int} :
    ∀ (cs : List Comment) (r : List String) (k : Nat),
      DenialChain allow r k cs →
      ((A.length : Int) - m + 1 < (r.length : Int) - (k : Int) + 1 ∨
        (r.length : Int) < (A.length : Int) - m + 1) →
      approvalLoop cs A m allow r = .ok (.denied, [], none) := by
  intro cs
  induction cs with
  | nil =>
    intro r k h _
    cases h
  | cons c cs ih =>
    intro r k h hq
    cases h with
    | denial _ _ _ hmem hcl =>
      simp only [approvalLoop, stepComment_denial hmem hcl]
    | counted _ _ _ k2 hmem hcl hsub =>
      have hne : (r.length : Int) ≠ (A.length : Int) - m + 1 := by omega
      simp only [approvalLoop, stepComment_approval_cont hmem hcl hne]
      have hspec := approversIndex_spec r c.user hmem
      have hperm : (swapRemove r (approversIndex r c.user).toNat).Perm (r.erase c.user) := by
        have hsp := swapRemove_perm r (approversIndex r c.user).toNat hspec.2.1
        rwa [hspec.2.2] at hsp
      have hchain' := denialChain_perm hsub _ hperm.symm
      refine ih _ _ hchain' ?_
      rw [swapRemove_length]
      have hrpos : 1 ≤ r.length := List.length_pos.mpr (List.ne_nil_of_mem hmem)
      omega
    | skip _ _ _ _ hmem hsub =>
      simp only [approvalLoop, stepComment_not_mem hmem]
      exact ih _ _ hsub hq
    | noise _ _ _ _ hcl hsub =>
      simp only [approvalLoop, stepComment_noise hcl]
      exact ih _ _ hsub hq

/- ## Characterization of the comment classifier regexes -/

theorem dropWhile_append_of_all {p : Char → Bool} {l₁ l₂ : List Char}
    (h : ∀ c ∈ l₁, p c = true) : (l₁ ++ l₂).dropWhile p = l₂.dropWhile p := by
  induction l₁ with
  | nil => rfl
  | cons c t ih =>
    rw [List.cons_append, List.dropWhile_cons, if_pos (h c (by simp))]
    exact ih (fun d hd => h d (by simp [hd]))

theorem dropWhile_punct_of_newlines {l : List Char} (h : ∀ c ∈ l, c = '\n') :
    l.dropWhile isPunct = l := by
  cases l with
  | nil => rfl
  | cons c t =>
    rw [List.dropWhile_cons, if_neg]
    rw [h c (by simp)]
    decide

theorem matchApproved_iff (word body : String) :
    matchApproved word body = true ↔
      ∃ core punct trail : List Char,
        body.toList = core ++ punct ++ trail ∧
        core.map Char.toLower = word.toList ∧
        (∀ c ∈ punct, c = '.' ∨ c = '!') ∧
        (∀ c ∈ trail, c = '\n') := by
  constructor
  · intro h
    unfold matchApproved at h
    rw [Bool.and_eq_true] at h
    obtain ⟨h1, h2⟩ := h
    rw [beq_iff_eq] at h1
    refine ⟨body.toList.take word.toList.length,
      (body.toList.drop word.toList.length).takeWhile isPunct,
      (body.toList.drop word.toList.length).dropWhile isPunct, ?_, h1, ?_, ?_⟩
    · rw [List.append_assoc, List.takeWhile_append_dropWhile, List.take_append_drop]
    · intro c hc
      have hp : isPunct c = true := List.mem_takeWhile_imp hc
      unfold isPunct at hp
      rw [Bool.or_eq_true, beq_iff_eq, beq_iff_eq] at hp
      exact hp
    · intro c hc
      rw [List.all_eq_true] at h2
      have hcn := h2 c hc
      rwa [beq_iff_eq] at hcn
  · rintro ⟨core, punct, trail, hbody, hcore, hpunct, htrail⟩
    have hlen : core.length = word.toList.length := by
      have hlm := congrArg List.length hcore
      simpa using hlm
    have htake : body.toList.take word.toList.length = core := by
      rw [hbody, List.append_assoc, ← hlen, List.take_left]
    have hdrop : body.toList.drop word.toList.length = punct ++ trail := by
      rw [hbody, List.append_assoc, ← hlen, List.drop_left]
    unfold matchApproved
    rw [Bool.and_eq_true]
    constructor
    · rw [beq_iff_eq, htake]
      exact hcore
    · rw [List.all_eq_true, hdrop]
      rw [dropWhile_append_of_all (fun c hc => ?_), dropWhile_punct_of_newlines htrail]
      · intro c hc
        rw [beq_iff_eq]
        exact htrail c hc
      · rcases hpunct c hc with hd | hd <;> rw [hd] <;> decide

theorem matchDenied_iff (word body : String) :
    matchDenied word body = true ↔
      ∃ core punct : List Char,
        body.toList = core ++ punct ∧
        core.map Char.toLower = word.toList ∧
        (punct = [] ∨ punct = ['.'] ∨ punct = ['!']) := by
  constructor
  · intro h
    unfold matchDenied at h
    rw [Bool.and_eq_true, Bool.and_eq_true] at h
    obtain ⟨h1, h2, h3⟩ := h
    rw [beq_iff_eq] at h1
    rw [decide_eq_true_iff] at h2
    rw [List.all_eq_true] at h3
    refine ⟨body.toList.take word.toList.length, body.toList.drop word.toList.length,
      (List.take_append_drop _ _).symm, h1, ?_⟩
    rcases hrest : body.toList.drop word.toList.length with _ | ⟨c, t⟩
    · exact Or.inl rfl
    · rcases t with _ | ⟨d, t2⟩
      · have hp : isPunct c = true := by
          have := h3 c (by rw [hrest]; simp)
          exact this
        unfold isPunct at hp
        rw [Bool.or_eq_true, beq_iff_eq, beq_iff_eq] at hp
        rcases hp with hp | hp
        · exact Or.inr (Or.inl (by rw [hp]))
        · exact Or.inr (Or.inr (by rw [hp]))
      · rw [hrest] at h2
        simp at h2
  · rintro ⟨core, punct, hbody, hcore, hpunct⟩
    have hlen : core.length = word.toList.length := by
      have hlm := congrArg List.length hcore
      simpa using hlm
    have htake : body.toList.take word.toList.length = core := by
      rw [hbody, ← hlen, List.take_left]
    have hdrop : body.toList.drop word.toList.length = punct := by
      rw [hbody, ← hlen, List.drop_left]
    unfold matchDenied
    rw [Bool.and_eq_true, Bool.and_eq_true]
    refine ⟨by rw [beq_iff_eq, htake]; exact hcore, ?_, ?_⟩
    · rw [decide_eq_true_iff, hdrop]
      rcases hpunct with hp | hp | hp <;> rw [hp] <;> decide
    · rw [List.all_eq_true, hdrop]
      rcases hpunct with hp | hp | hp <;> rw [hp] <;> decide

theorem isApproved_iff (body : String) : isApproved body = true ↔ ApprovalShape body := by
  unfold isApproved ApprovalShape
  rw [List.any_eq_true]
  constructor
  · rintro ⟨w, hw, hm⟩
    exact ⟨w, hw, (matchApproved_iff w body).mp hm⟩
  · rintro ⟨w, hw, hshape⟩
    exact ⟨w, hw, (matchApproved_iff w body).mpr hshape⟩

theorem isDenied_iff (body : String) : isDenied body = true ↔ DenialShape body := by
  unfold isDenied DenialShape
  rw [List.any_eq_true]
  constructor
  · rintro ⟨w, hw, hm⟩
    exact ⟨w, hw, (matchDenied_iff w body).mp hm⟩
  · rintro ⟨w, hw, hshape⟩
    exact ⟨w, hw, (matchDenied_iff w body).mpr hshape⟩

/- ## The claims -/

/-- C1: for a duplicate-free approver list `A` and a threshold `n` with
`1 ≤ n ≤ len A`, a comment sequence that contains exactly `n`
approval-classified comments authored by `n` distinct members of `A`, in
which every other comment before the `n`-th approval is either authored
outside the still-remaining approver set or classifies as noise (so no
denial-classified comment and no comment whose deployment-name extraction
aborts comes from a still-remaining approver before the `n`-th approval),
makes `approvalFromComments` return status Approved with a nil error; the
`n`-th counted approval is the decisive comment — the returned name list
is the one attached to it (nil here, since its extraction succeeded). -/
theorem claim_C1_quorum_approved (A allow : List String) (cs : List Comment) (n : Nat)
    (_hA : A.Nodup) (h1 : 1 ≤ n) (_h2 : n ≤ A.length)
    (hchain : ApprovalChain allow A n cs) :
    approvalFromComments cs A (n : Int) allow = .ok (.approved, [], none) := by
  unfold approvalFromComments normMin
  rw [if_neg (by omega : ¬((n : Int) = 0))]
  exact approvalLoop_approved_of_chain cs A n hchain (by omega)

/-- Witness for C1: `A = ["alice", "bob"]`, `n = 2`, comments
`[(alice, "lgtm"), (bob, "yes")]` yield Approved. -/
theorem claim_C1_quorum_approved_witness :
    (["alice", "bob"] : List String).Nodup ∧
    approvalFromComments [⟨"alice", "lgtm"⟩, ⟨"bob", "yes"⟩] ["alice", "bob"] (2 : Int) []
      = .ok (.approved, [], none) :=
  ⟨by decide,
    claim_C1_quorum_approved ["alice", "bob"] [] [⟨"alice", "lgtm"⟩, ⟨"bob", "yes"⟩] 2
      (by decide) (by decide) (by decide)
      (ApprovalChain.counted _ _ _ _ (by decide) (by decide)
        (ApprovalChain.decisive _ _ _ (by decide) (by decide)))⟩

/-- C2 counterexample: the claim quantifies over denials "authored by any
member of A"; but a member whose approval was already counted is no longer
in the remaining set, so their later denial is skipped.  With
`A = ["alice", "bob"]`, `m = 2`, comments
`[(alice, "yes"), (alice, "no")]`: alice is a member of `A`, her comment
"no" is denial-classified and quorum is not yet reached, yet the result is
Pending, not Denied. -/
theorem claim_C2_denial_counterexample :
    ("alice" ∈ (["alice", "bob"] : List String)) ∧
    classifyComment [] ⟨"alice", "no"⟩ = .denial ∧
    approvalFromComments [⟨"alice", "yes"⟩, ⟨"alice", "no"⟩] ["alice", "bob"] 2 []
      ≠ .ok (.denied, [], none) ∧
    approvalFromComments [⟨"alice", "yes"⟩, ⟨"alice", "no"⟩] ["alice", "bob"] 2 []
      = .ok (.pending, [], none) := by
  refine ⟨by decide, by decide, by decide, by decide⟩

/-- C2 (amended): a denial-classified comment authored by a member of `A`
who is still in the remaining approver set (has not had an approval
counted), appearing before quorum is reached, makes `approvalFromComments`
return Denied with an empty name list and nil error, regardless of how many
approvals preceded it in that pass. -/
theorem claim_C2_denial_amended (A allow : List String) (m : Int) (cs : List Comment) (k : Nat)
    (hchain : DenialChain allow A k cs)
    (hq : (k : Int) < normMin A m ∨ normMin A m ≤ 0) :
    approvalFromComments cs A m allow = .ok (.denied, [], none) := by
  unfold approvalFromComments
  apply approvalLoop_denied_of_chain cs A k hchain
  rcases hq with h | h
  · exact Or.inl (by omega)
  · exact Or.inr (by omega)

/-- Witness for the amended C2: `A = ["alice", "bob"]`, `m = 2`, alice
approves, then bob denies before quorum: Denied. -/
theorem claim_C2_denial_amended_witness :
    ((1 : Int) < normMin ["alice", "bob"] 2) ∧
    approvalFromComments [⟨"alice", "yes"⟩, ⟨"bob", "no"⟩] ["alice", "bob"] 2 []
      = .ok (.denied, [], none) :=
  ⟨by decide,
    claim_C2_denial_amended ["alice", "bob"] [] 2 [⟨"alice", "yes"⟩, ⟨"bob", "no"⟩] 1
      (DenialChain.counted _ _ _ _ (by decide) (by decide)
        (DenialChain.denial _ _ _ (by decide) (by decide)))
      (Or.inl (by decide))⟩

/-- C3 (code bug): with allow-list `["blue", "green"]` and a decisive
comment from the sole approver, the claim (from the spec) expects
`"approve[blue,green]"` to yield Approved with names `["blue", "green"]`
and `"approve[blue,red]"` to yield an unknown-deployment-name error; the
code instead panics on the nil `validDeploymentNamesMap` write
(approval.go lines 117-120) in both cases, before either outcome can be
produced.  The third part of the claim does hold: the unbalanced
`"approve[blue"` returns the malformed-syntax error with status Pending
and an empty name list. -/
theorem claim_C3_deployment_names_bug :
    approvalFromComments [⟨"alice", "approve[blue,green]"⟩] ["alice"] 1 ["blue", "green"]
      = .fault ∧
    approvalFromComments [⟨"alice", "approve[blue,red]"⟩] ["alice"] 1 ["blue", "green"]
      = .fault ∧
    approvalFromComments [⟨"alice", "approve[blue"⟩] ["alice"] 1 ["blue", "green"]
      = .ok (.pending, [], some "errors.comment by not valid") := by
  refine ⟨by decide, by decide, by decide⟩

/-- C4: in every evaluation in which the allow-list is non-empty and the
loop reaches (state `r₁` after the prefix `pre`) a comment from a
still-remaining approver whose body contains `[` and whose bracket part
matches `\[(.*)\]`, `approvalFromComments` faults at run time on the
write to the nil `validDeploymentNamesMap`, before producing any Approved
result or unknown-deployment-name error. -/
theorem claim_C4_nil_map_fault (A allow : List String) (m : Int) (pre post : List Comment)
    (c : Comment) (r₁ : List String)
    (hallow : allow ≠ [])
    (hrun : runState pre A (normMin A m) allow A = some r₁)
    (hmem : c.user ∈ r₁)
    (hbr : c.body.toList.contains '[' = true)
    (hmatch : ∃ cap, findBracketSubmatch (rawBracketPart c.body) = some cap) :
    approvalFromComments (pre ++ c :: post) A m allow = .fault := by
  obtain ⟨cap, hcap⟩ := hmatch
  have hext : extractDeploy c.body allow = .fault := by
    have hcond : (c.body.toList.contains '[' && !allow.isEmpty) = true := by
      rw [Bool.and_eq_true]
      refine ⟨hbr, ?_⟩
      cases allow with
      | nil => exact absurd rfl hallow
      | cons a t => rfl
    unfold extractDeploy
    rw [if_pos hcond, hcap]
  unfold approvalFromComments
  rw [approvalLoop_append, hrun]
  simp only [approvalLoop, stepComment_fault_of_extract hmem hext]

/-- Witness for C4: allow-list `["blue"]`, single comment
`(alice, "go[blue]")` from the sole approver: the run faults. -/
theorem claim_C4_nil_map_fault_witness :
    ((["blue"] : List String) ≠ []) ∧
    approvalFromComments [⟨"alice", "go[blue]"⟩] ["alice"] 1 ["blue"] = .fault :=
  ⟨by decide,
    claim_C4_nil_map_fault ["alice"] ["blue"] 1 [] [] ⟨"alice", "go[blue]"⟩ ["alice"]
      (by decide) rfl (by decide) (by decide) ⟨"blue".toList, by decide⟩⟩

/-- C5: `isApproved` holds exactly of the bodies that are one of
`{"approved", "approve", "lgtm", "yes"}` case-insensitively, followed by
any number of `.`/`!` and then any number of newlines, and nothing else;
`isDenied` holds exactly of the bodies that are one of
`{"denied", "deny", "no"}` case-insensitively followed by at most one
`.`/`!` and no trailing newline.  Matching is whole-body ("I approve" is
not an approval) and a trailing space is not trimmed. -/
theorem claim_C5_classifier_shape :
    (∀ body : String, (isApproved body = true ↔ ApprovalShape body) ∧
      (isDenied body = true ↔ DenialShape body)) ∧
    isApproved "approved " = false ∧ isDenied "no " = false ∧
    isApproved "I approve" = false := by
  refine ⟨fun body => ⟨isApproved_iff body, isDenied_iff body⟩, by decide, by decide, by decide⟩

/-- C6: a comment whose author is not in the configured approver list can
be inserted at any position (equivalently, removed) without changing the
result of `approvalFromComments`, whatever its body — including bodies
with malformed bracket syntax or unknown deployment names, since the
author check precedes extraction. -/
theorem claim_C6_outsider_irrelevant (A allow : List String) (m : Int)
    (pre post : List Comment) (c : Comment) (h : c.user ∉ A) :
    approvalFromComments (pre ++ c :: post) A m allow
      = approvalFromComments (pre ++ post) A m allow := by
  unfold approvalFromComments
  exact approvalLoop_insert c post pre A h

/-- Witness for C6: outsider dave posts a denial with no effect. -/
theorem claim_C6_outsider_irrelevant_witness :
    ("dave" ∉ (["alice", "bob"] : List String)) ∧
    approvalFromComments [⟨"alice", "yes"⟩, ⟨"dave", "no"⟩] ["alice", "bob"] 2 []
      = approvalFromComments [⟨"alice", "yes"⟩] ["alice", "bob"] 2 [] :=
  ⟨by decide,
    claim_C6_outsider_irrelevant ["alice", "bob"] [] 2 [⟨"alice", "yes"⟩] [] ⟨"dave", "no"⟩
      (by decide)⟩

/-- C7: with a duplicate-free approver list, once an author's approval has
been counted (a non-decisive approval by a still-remaining approver, which
removes the author from the remaining set), any later comment by that same
author — in particular a second approval — can be inserted or removed
without changing the result: it is skipped and never double-counted. -/
theorem claim_C7_no_double_count (A allow : List String) (m : Int)
    (pre mid post : List Comment) (capp c : Comment) (r₁ : List String)
    (hA : A.Nodup)
    (hrun : runState pre A (normMin A m) allow A = some r₁)
    (hmem : capp.user ∈ r₁)
    (hcl : classifyComment allow capp = .approval)
    (hq : (r₁.length : Int) ≠ (A.length : Int) - normMin A m + 1)
    (huser : c.user = capp.user) :
    approvalFromComments (pre ++ capp :: (mid ++ c :: post)) A m allow
      = approvalFromComments (pre ++ capp :: (mid ++ post)) A m allow := by
  have hr₁ : r₁.Nodup := runState_nodup hA hrun
  have hspec := approversIndex_spec r₁ capp.user hmem
  have hnm : capp.user ∉ swapRemove r₁ (approversIndex r₁ capp.user).toNat := by
    have h0 := getD_not_mem_swapRemove r₁ (approversIndex r₁ capp.user).toNat hr₁ hspec.2.1
    rwa [hspec.2.2] at h0
  have hL : approvalFromComments (pre ++ capp :: (mid ++ c :: post)) A m allow
      = approvalLoop (mid ++ c :: post) A (normMin A m) allow
          (swapRemove r₁ (approversIndex r₁ capp.user).toNat) := by
    unfold approvalFromComments
    rw [approvalLoop_append, hrun]
    simp only [approvalLoop, stepComment_approval_cont hmem hcl hq]
  have hR : approvalFromComments (pre ++ capp :: (mid ++ post)) A m allow
      = approvalLoop (mid ++ post) A (normMin A m) allow
          (swapRemove r₁ (approversIndex r₁ capp.user).toNat) := by
    unfold approvalFromComments
    rw [approvalLoop_append, hrun]
    simp only [approvalLoop, stepComment_approval_cont hmem hcl hq]
  rw [hL, hR]
  apply approvalLoop_insert
  rw [huser]
  exact hnm

/-- Witness for C7: alice's second approval after her counted first one
changes nothing. -/
theorem claim_C7_no_double_count_witness :
    (["alice", "bob"] : List String).Nodup ∧
    approvalFromComments [⟨"alice", "yes"⟩, ⟨"alice", "approve"⟩, ⟨"bob", "lgtm"⟩]
        ["alice", "bob"] 2 []
      = approvalFromComments [⟨"alice", "yes"⟩, ⟨"bob", "lgtm"⟩] ["alice", "bob"] 2 [] :=
  ⟨by decide,
    claim_C7_no_double_count ["alice", "bob"] [] 2 [] [] [⟨"bob", "lgtm"⟩]
      ⟨"alice", "yes"⟩ ⟨"alice", "approve"⟩ ["alice", "bob"]
      (by decide) rfl (by decide) (by decide) (by decide) rfl⟩

/-- C8: `minimumApprovals = 0` yields exactly the same result as
`minimumApprovals = len approvers`, for every comment sequence, approver
list and allow-list. -/
theorem claim_C8_zero_means_all (cs : List Comment) (A allow : List String) :
    approvalFromComments cs A 0 allow = approvalFromComments cs A (A.length : Int) allow := by
  unfold approvalFromComments normMin
  rw [if_pos rfl, ite_self]

/-- C9: whenever no comment causes an early return (the loop runs off the
end of the list, i.e. `runState` returns a final remaining set),
`approvalFromComments` returns status Pending with an empty name list and
nil error; in particular the empty comment list always yields Pending. -/
theorem claim_C9_pending_default (cs : List Comment) (A allow : List String) (m : Int)
    (r : List String) (hrun : runState cs A (normMin A m) allow A = some r) :
    approvalFromComments cs A m allow = .ok (.pending, [], none) := by
  unfold approvalFromComments
  exact approvalLoop_pending_of_runState hrun

/-- Witness for C9: the empty comment list yields Pending. -/
theorem claim_C9_pending_default_witness :
    runState [] ["alice"] (normMin ["alice"] 1) [] ["alice"] = some ["alice"] ∧
    approvalFromComments [] ["alice"] 1 [] = .ok (.pending, [], none) :=
  ⟨rfl, claim_C9_pending_default [] ["alice"] [] 1 ["alice"] rfl⟩

/-- C10: if `approvalFromComments cs` returns Approved (with some names and
nil error), or Denied, or any non-nil error, then appending further
comments cannot change anything: `approvalFromComments (cs ++ ext)`
returns the identical result, because the decisive comment early-returns
and later comments are never examined. -/
theorem claim_C10_verdict_stable (cs ext : List Comment) (A allow : List String) (m : Int)
    (res : GoResult EvalResult)
    (hres : approvalFromComments cs A m allow = res)
    (hdec : (∃ ns, res = .ok (.approved, ns, none)) ∨
      (∃ ns e, res = .ok (.denied, ns, e)) ∨
      (∃ st ns e, res = .ok (st, ns, some e))) :
    approvalFromComments (cs ++ ext) A m allow = res := by
  unfold approvalFromComments at hres ⊢
  rw [approvalLoop_append]
  cases hrun : runState cs A (normMin A m) allow A with
  | some r' =>
    have hp := approvalLoop_pending_of_runState hrun
    rw [hp] at hres
    exfalso
    subst hres
    rcases hdec with ⟨ns, h⟩ | ⟨ns, e, h⟩ | ⟨st, ns, e, h⟩ <;> simp at h
  | none => exact hres

/-- Witness for C10: a denial verdict survives a later approval being
appended. -/
theorem claim_C10_verdict_stable_witness :
    approvalFromComments [⟨"alice", "no"⟩] ["alice"] 1 [] = .ok (.denied, [], none) ∧
    approvalFromComments [⟨"alice", "no"⟩, ⟨"alice", "yes"⟩] ["alice"] 1 []
      = .ok (.denied, [], none) :=
  ⟨by decide,
    claim_C10_verdict_stable [⟨"alice", "no"⟩] [⟨"alice", "yes"⟩] ["alice"] [] 1
      (.ok (.denied, [], none)) (by decide) (Or.inr (Or.inl ⟨[], none, rfl⟩))⟩

end ManualApproval
